import Mathlib

/-!
Shallow embedding of the crossword CSP solver from `generate.py` and `p.py`
(repository codesmith-abba/crossword).

Words are lists of characters; a `Variable` is a slot in the grid; a `Puzzle`
bundles the data the solver reads from its external collaborator (the
`Crossword` puzzle-definition object): the list of variables and the overlap
relation.  The domain store is an association list from variables to candidate
word lists (insertion ordered, mirroring a Python dict keyed by all
variables), and an assignment is an association list from variables to
`Option Word` (`none` is Python's `None` marker).

Python's unordered set/dict iteration is rendered as iteration over these
insertion-ordered lists, making the embedding deterministic (spec section 9
explicitly asks for an explicitly ordered rendering).  Python exceptions are
rendered as `Except` errors, and the unbounded recursion/loop of `backtrack`
and `ac3` takes a fuel parameter (`none` / an `outOfFuel` error meaning the
fuel ran out, which never happens for sufficiently large fuel).
-/

set_option linter.unusedVariables false

abbrev Word := List Char

/-- A grid slot, as in `crossword.py`'s `Variable`: start cell, length and
direction.  Identity is equality of all four attributes. -/
structure Variable where
  row : Nat
  col : Nat
  length : Nat
  down : Bool
deriving DecidableEq

/-- The puzzle definition consumed by the solver (spec section 6): the set of
variables and the overlap relation.  `overlaps x y = some (i, j)` means
character `i` of `x`'s word must equal character `j` of `y`'s word. -/
structure Puzzle where
  vars : List Variable
  overlaps : Variable → Variable → Option (Nat × Nat)

/-- Modelled from the spec: `PuzzleDefinition.neighbors` (the `Crossword`
class is not under `src/`).  Spec section 6: the variables overlapping `v`,
i.e. the other variables with a recorded overlap. -/
def neighbors (p : Puzzle) (x : Variable) : List Variable :=
  p.vars.filter (fun y => decide (y ≠ x) && (p.overlaps x y).isSome)

/-- Character `i` of a word; Python raises `IndexError` out of range, which
this total rendering replaces by a default character (all theorems about
concrete runs only ever index in range). -/
def charAt (w : Word) (i : Nat) : Char := w.getD i ' '

/-- The domain store: `CrosswordCreator.domains`, a dict keyed by every
variable of the puzzle. -/
abbrev Domains := List (Variable × List Word)

def domGet : Domains → Variable → List Word
  | [], _ => []
  | (u, ws) :: d, v => if u = v then ws else domGet d v

def domSet (d : Domains) (x : Variable) (ws : List Word) : Domains :=
  d.map (fun e => if e.1 = x then (x, ws) else e)

/-- `CrosswordCreator.__init__`: every variable starts with the full word
list. -/
def initDomains (p : Puzzle) (words : List Word) : Domains :=
  p.vars.map (fun v => (v, words))

/-- A partial assignment: Python dict from `Variable` to a word or `None`. -/
abbrev Assignment := List (Variable × Option Word)

def lookupA : Assignment → Variable → Option (Option Word)
  | [], _ => none
  | (u, w) :: a, v => if u = v then some w else lookupA a v

/-- `v in assignment` in Python. -/
def keyMem (a : Assignment) (v : Variable) : Bool := (lookupA a v).isSome

/-- `assignment[v] = w` in Python: update in place when the key exists,
otherwise append (dict insertion order). -/
def setA : Assignment → Variable → Option Word → Assignment
  | [], v, w => [(v, w)]
  | (u, x) :: a, v, w => if u = v then (u, w) :: a else (u, x) :: setA a v w

/-- `enforce_node_consistency` (generate.py lines 98-108, and the identical
free function in p.py): filter every domain down to the words of the
variable's length, raising `ValueError` naming the first variable whose
pruned domain is empty. -/
def enforce_node_consistency : Domains → Except Variable Domains
  | [] => .ok []
  | (v, ws) :: d =>
    if (ws.filter (fun w => decide (w.length = v.length))).isEmpty then .error v
    else
      match enforce_node_consistency d with
      | .error u => .error u
      | .ok d' => .ok ((v, ws.filter (fun w => decide (w.length = v.length))) :: d')

/-- `CrosswordCreator.revise` (generate.py lines 111-140): returns the new
domain store and whether a revision was made.  The Python local
`values_to_remove` is written out in place (twice), and the set difference
`self.domains[x] -= values_to_remove` is the filter keeping the words not in
that list. -/
def revise (p : Puzzle) (d : Domains) (x y : Variable) : Domains × Bool :=
  match p.overlaps x y with
  | none => (d, false)
  | some (i, j) =>
    if ((domGet d x).filter
        (fun vx => !((domGet d y).any (fun vy => decide (charAt vx i = charAt vy j))))).isEmpty
    then (d, false)
    else
      (domSet d x ((domGet d x).filter (fun vx => decide (vx ∉ (domGet d x).filter
        (fun vx => !((domGet d y).any (fun vy => decide (charAt vx i = charAt vy j))))))), true)

/-- `CrosswordCreator.get_arcs` (generate.py lines 142-153). -/
def get_arcs (p : Puzzle) : List (Variable × Variable) :=
  p.vars.flatMap (fun X => (neighbors p X).map (fun Y => (X, Y)))

/-- `CrosswordCreator.ac3` (generate.py lines 155-182), with fuel; `none`
means the fuel ran out before the queue emptied.  Returns the final domain
store and the Boolean the Python function returns. -/
def ac3 (p : Puzzle) : Nat → List (Variable × Variable) → Domains → Option (Domains × Bool)
  | 0, _, _ => none
  | fuel + 1, queue, d =>
    match queue with
    | [] => some (d, true)
    | (X, Y) :: rest =>
      if (revise p d X Y).2 then
        if (domGet (revise p d X Y).1 X).isEmpty then some ((revise p d X Y).1, false)
        else
          ac3 p fuel
            (rest ++ ((neighbors p X).filter (fun Z => decide (Z ≠ Y))).map (fun Z => (Z, X)))
            (revise p d X Y).1
      else ac3 p fuel rest (revise p d X Y).1

/-- `CrosswordCreator.assignment_complete` (generate.py lines 185-190). -/
def assignment_complete (p : Puzzle) (a : Assignment) : Bool :=
  p.vars.all (fun v =>
    match lookupA a v with
    | some (some _) => true
    | _ => false)

/-- `CrosswordCreator.consistent` (generate.py lines 192-227).  The
duplicate check compares the number of distinct values (including `None`
markers) with the number of values, exactly as
`len(values) != len(set(values))` does. -/
def consistent (p : Puzzle) (a : Assignment) : Bool :=
  let values := a.map Prod.snd
  if values.dedup.length ≠ values.length then false
  else a.all (fun e =>
    match e.2 with
    | none => true
    | some w =>
      if w.length ≠ e.1.length then false
      else (neighbors p e.1).all (fun other =>
        match lookupA a other with
        | none => true
        | some none => true
        | some (some ow) =>
          match p.overlaps e.1 other with
          | none => true
          | some (i, j) => decide (charAt w i = charAt ow j)))

/-- The score `count_conflicts` computed inside `order_domain_values`
(generate.py lines 236-243): over the neighbors of `var` that are not keys of
the assignment, sum `len(domain) - len([val for val in domain if val != value])`. -/
def count_conflicts (p : Puzzle) (d : Domains) (a : Assignment) (var : Variable) (value : Word) : Nat :=
  (((neighbors p var).filter (fun n => !(keyMem a n))).map
    (fun n => (domGet d n).length - ((domGet d n).filter (fun w => decide (w ≠ value))).length)).sum

/-- Stable insertion of a word into a key-sorted list (a word with an equal
key goes after the ones already present, matching Python's stable `sorted`). -/
def insertSorted (key : Word → Nat) (x : Word) : List Word → List Word
  | [] => [x]
  | y :: ys => if key x ≤ key y then x :: y :: ys else y :: insertSorted key x ys

/-- Stable sort by a numeric key, the behaviour of Python's `sorted`. -/
def sortByKey (key : Word → Nat) : List Word → List Word
  | [] => []
  | x :: xs => insertSorted key x (sortByKey key xs)

/-- `CrosswordCreator.order_domain_values` (generate.py lines 229-246). -/
def order_domain_values (p : Puzzle) (d : Domains) (a : Assignment) (var : Variable) : List Word :=
  sortByKey (count_conflicts p d a var) (domGet d var)

/-- The `degree` helper inside `select_unassigned_variable` (generate.py
lines 259-260): the number of other variables whose domain shares at least
one word with `var`'s domain. -/
def degree (d : Domains) (var : Variable) : Nat :=
  (d.map Prod.fst).countP (fun other =>
    decide (other ≠ var) && (domGet d var).any (fun w => decide (w ∈ domGet d other)))

/-- The sort key `(len(self.domains[var]), -degree(var))` of
`select_unassigned_variable`. -/
def svkey (d : Domains) (var : Variable) : Nat × Int :=
  ((domGet d var).length, -(degree d var : Int))

/-- Python tuple comparison on the sort key. -/
def keyLtB (a b : Nat × Int) : Bool :=
  decide (a.1 < b.1) || (decide (a.1 = b.1) && decide (a.2 < b.2))

/-- The variables of the domain store that are not keys of the assignment
(`unassigned` in generate.py line 256). -/
def unassignedList (d : Domains) (a : Assignment) : List Variable :=
  (d.map Prod.fst).filter (fun v => !(keyMem a v))

/-- `CrosswordCreator.select_unassigned_variable` (generate.py lines
249-263): Python's `min` with key `(len(domain), -degree)`; `none` renders
the `ValueError` that `min` raises on an empty sequence. -/
def select_unassigned_variable (d : Domains) (a : Assignment) : Option Variable :=
  match unassignedList d a with
  | [] => none
  | v :: vs => some (vs.foldl (fun best y => if keyLtB (svkey d y) (svkey d best) then y else best) v)

/-- Errors the search can raise: `selectEmpty` is the `ValueError` from
`min` over an empty sequence; `outOfFuel` marks fuel exhaustion of the
model's fuel parameter. -/
inductive BTErr where
  | selectEmpty
  | outOfFuel
deriving DecidableEq

/-- The `for word in self.order_domain_values(...)` loop of `backtrack`
(generate.py lines 279-285), threading the mutable assignment dict
explicitly: `step` is the recursive call to `backtrack`.  The returned
assignment is the final state of the dict, the Boolean tells whether a
complete assignment was returned (`false` renders Python's `return None`). -/
def tryLoop (p : Puzzle) (var : Variable)
    (step : Assignment → Except BTErr (Assignment × Bool)) :
    List Word → Assignment → Except BTErr (Assignment × Bool)
  | [], a => .ok (a, false)
  | w :: ws, a =>
    let a1 := setA a var (some w)
    if consistent p a1 then
      match step a1 with
      | .error e => .error e
      | .ok (a2, true) => .ok (a2, true)
      | .ok (a2, false) => tryLoop p var step ws (setA a2 var none)
    else tryLoop p var step ws (setA a1 var none)

/-- `CrosswordCreator.backtrack` (generate.py lines 267-286), with fuel for
the recursion depth. -/
def backtrack (p : Puzzle) (d : Domains) : Nat → Assignment → Except BTErr (Assignment × Bool)
  | 0, _ => .error .outOfFuel
  | fuel + 1, a =>
    if assignment_complete p a then .ok (a, true)
    else
      match select_unassigned_variable d a with
      | none => .error .selectEmpty
      | some var => tryLoop p var (backtrack p d fuel) (order_domain_values p d a var) a

/-- Errors `solve` can surface: `malformed v` is the `ValueError` raised by
`enforce_node_consistency` for variable `v`; the search errors are as in
`BTErr`. -/
inductive SolveErr where
  | malformed (v : Variable)
  | selectEmpty
  | outOfFuel
deriving DecidableEq

/-- `CrosswordCreator.solve` (generate.py lines 90-96).  Note line 95
discards `ac3`'s Boolean result, exactly as the embedded definition does. -/
def solve (p : Puzzle) (words : List Word) (fuel : Nat) : Except SolveErr (Assignment × Bool) :=
  match enforce_node_consistency (initDomains p words) with
  | .error v => .error (.malformed v)
  | .ok d1 =>
    match ac3 p fuel (get_arcs p) d1 with
    | none => .error .outOfFuel
    | some (d2, _) =>
      match backtrack p d2 fuel [] with
      | .error .selectEmpty => .error .selectEmpty
      | .error .outOfFuel => .error .outOfFuel
      | .ok r => .ok r

/-- Mirrors `solve`'s control flow and reports whether the `backtrack` call
on line 96 of generate.py is reached: it is reached whenever
`enforce_node_consistency` does not raise, regardless of the Boolean `ac3`
returned, because line 95 ignores that Boolean. -/
def solveRunsBacktrack (p : Puzzle) (words : List Word) (fuel : Nat) : Bool :=
  match enforce_node_consistency (initDomains p words) with
  | .error _ => false
  | .ok d1 =>
    match ac3 p fuel (get_arcs p) d1 with
    | none => false
    | some _ => true

/-! ### Concrete puzzles used by counterexamples, failing inputs and witnesses -/

instance {ε α : Type} [DecidableEq ε] [DecidableEq α] : DecidableEq (Except ε α)
  | .error e, .error f =>
    if h : e = f then .isTrue (by rw [h]) else .isFalse (by intro hc; cases hc; exact h rfl)
  | .error _, .ok _ => .isFalse (by intro hc; cases hc)
  | .ok _, .error _ => .isFalse (by intro hc; cases hc)
  | .ok a, .ok b =>
    if h : a = b then .isTrue (by rw [h]) else .isFalse (by intro hc; cases hc; exact h rfl)

def vA : Variable := ⟨0, 0, 2, false⟩
def vB : Variable := ⟨0, 0, 2, true⟩
def vC : Variable := ⟨5, 5, 2, false⟩
def vB3 : Variable := ⟨0, 0, 3, true⟩
def vD4 : Variable := ⟨7, 0, 4, false⟩

def wAX : Word := ['a', 'x']
def wBX : Word := ['b', 'x']
def wBY : Word := ['b', 'y']
def wCY : Word := ['c', 'y']
def wCX : Word := ['c', 'x']
def wDX : Word := ['d', 'x']
def wCZZ : Word := ['c', 'z', 'z']

/-- Overlap relation crossing `vA` and `vB` at their first characters. -/
def ovAB : Variable → Variable → Option (Nat × Nat) := fun x y =>
  if (x = vA ∧ y = vB) ∨ (x = vB ∧ y = vA) then some (0, 0) else none

/-- Overlap relation crossing `vA` and `vB3` at their first characters. -/
def ovAB3 : Variable → Variable → Option (Nat × Nat) := fun x y =>
  if (x = vA ∧ y = vB3) ∨ (x = vB3 ∧ y = vA) then some (0, 0) else none

def pAB : Puzzle := ⟨[vA, vB], ovAB⟩
def pABC : Puzzle := ⟨[vA, vB, vC], fun _ _ => none⟩
def pC3 : Puzzle := ⟨[vA, vB3], ovAB3⟩
def pC9 : Puzzle := ⟨[vD4], fun _ _ => none⟩

def dC1 : Domains := [(vA, [wAX, wBX]), (vB, [wBY, wCY])]
def solC1 : Assignment := [(vA, some wBX), (vB, some wBY)]
def dC10 : Domains := [(vA, [wAX]), (vB, [wBY])]
def dGood : Domains := [(vA, [wBX]), (vB, [wBY])]
def dC6 : Domains := [(vA, [wAX, wBX]), (vB, [wAX, wCX, wDX])]


/-! ### Basic lemmas about the association-list operations -/

theorem lookupA_setA (a : Assignment) (v u : Variable) (w : Option Word) :
    lookupA (setA a v w) u = if u = v then some w else lookupA a u := by
  induction a with
  | nil =>
    by_cases h : u = v
    · simp [setA, lookupA, h]
    · have h' : ¬(v = u) := fun h2 => h h2.symm
      simp [setA, lookupA, h, h']
  | cons e a ih =>
    obtain ⟨ek, ev⟩ := e
    by_cases h1 : ek = v
    · subst h1
      by_cases h2 : u = ek
      · subst h2; simp [setA, lookupA]
      · have h2' : ¬(ek = u) := fun h3 => h2 h3.symm
        simp [setA, lookupA, h2, h2']
    · by_cases h2 : ek = u
      · subst h2
        simp [setA, lookupA, h1]
      · simp [setA, lookupA, h1, h2, ih]

theorem mem_of_lookupA (a : Assignment) (v : Variable) (w : Option Word)
    (h : lookupA a v = some w) : (v, w) ∈ a := by
  induction a with
  | nil => simp [lookupA] at h
  | cons e a ih =>
    obtain ⟨ek, ev⟩ := e
    by_cases h1 : ek = v
    · subst h1
      simp [lookupA] at h
      simp [h]
    · simp [lookupA, h1] at h
      exact List.mem_cons_of_mem _ (ih h)

theorem lookupA_isSome_iff (a : Assignment) (v : Variable) :
    (lookupA a v).isSome = true ↔ v ∈ a.map Prod.fst := by
  induction a with
  | nil => simp [lookupA]
  | cons e a ih =>
    obtain ⟨ek, ev⟩ := e
    by_cases h1 : ek = v
    · subst h1; simp [lookupA]
    · have h2 : ¬(v = ek) := fun h3 => h1 h3.symm
      simp [lookupA, h1, h2, ih]

theorem lookupA_of_mem_nodup (a : Assignment) (v : Variable) (w : Option Word)
    (hk : (a.map Prod.fst).Nodup) (h : (v, w) ∈ a) : lookupA a v = some w := by
  induction a with
  | nil => simp at h
  | cons e a ih =>
    obtain ⟨ek, ev⟩ := e
    simp only [List.map_cons, List.nodup_cons] at hk
    rcases List.mem_cons.mp h with h1 | h1
    · cases h1; simp [lookupA]
    · have hne : ek ≠ v := by
        intro he; subst he
        exact hk.1 (List.mem_map_of_mem Prod.fst h1)
      simp [lookupA, hne]
      exact ih hk.2 h1

theorem setA_keys (a : Assignment) (v : Variable) (w : Option Word) :
    (setA a v w).map Prod.fst =
      if v ∈ a.map Prod.fst then a.map Prod.fst else a.map Prod.fst ++ [v] := by
  induction a with
  | nil => simp [setA]
  | cons e a ih =>
    obtain ⟨ek, ev⟩ := e
    by_cases h1 : ek = v
    · subst h1; simp [setA]
    · have h2 : ¬(v = ek) := fun h3 => h1 h3.symm
      by_cases h3 : v ∈ a.map Prod.fst
      · simp [setA, h1, h2, h3, ih]
      · simp [setA, h1, h2, h3, ih]

theorem setA_keys_nodup (a : Assignment) (v : Variable) (w : Option Word)
    (hk : (a.map Prod.fst).Nodup) : ((setA a v w).map Prod.fst).Nodup := by
  rw [setA_keys]
  by_cases h : v ∈ a.map Prod.fst
  · simpa [h] using hk
  · simp [h, List.nodup_append, hk]

theorem domGet_not_mem (d : Domains) (v : Variable) (hv : v ∉ d.map Prod.fst) :
    domGet d v = [] := by
  induction d with
  | nil => simp [domGet]
  | cons e d ih =>
    obtain ⟨ek, ws⟩ := e
    simp only [List.map_cons, List.mem_cons] at hv
    push_neg at hv
    have h1 : ¬(ek = v) := fun h => hv.1 h.symm
    simp [domGet, h1, ih hv.2]

theorem domSet_keys (d : Domains) (x : Variable) (ws : List Word) :
    (domSet d x ws).map Prod.fst = d.map Prod.fst := by
  induction d with
  | nil => simp [domSet]
  | cons e d ih =>
    obtain ⟨ek, ws2⟩ := e
    by_cases h : ek = x
    · subst h; simpa [domSet] using ih
    · simpa [domSet, h] using ih

theorem domGet_domSet_ne (d : Domains) (x v : Variable) (ws : List Word) (h : v ≠ x) :
    domGet (domSet d x ws) v = domGet d v := by
  induction d with
  | nil => simp [domSet, domGet]
  | cons e d ih =>
    obtain ⟨ek, ws2⟩ := e
    simp only [domSet, List.map_cons]
    by_cases h1 : ek = x
    · subst h1
      rw [if_pos rfl]
      have h2 : ¬(ek = v) := fun h3 => h h3.symm
      simp only [domGet]
      rw [if_neg h2, if_neg h2]
      simpa [domSet] using ih
    · rw [if_neg (by simpa using h1)]
      simp only [domGet]
      by_cases h2 : ek = v
      · rw [if_pos h2, if_pos h2]
      · rw [if_neg h2, if_neg h2]
        simpa [domSet] using ih

theorem domGet_domSet_self (d : Domains) (x : Variable) (ws : List Word)
    (h : x ∈ d.map Prod.fst) : domGet (domSet d x ws) x = ws := by
  induction d with
  | nil => simp at h
  | cons e d ih =>
    obtain ⟨ek, ws2⟩ := e
    simp only [domSet, List.map_cons]
    by_cases h1 : ek = x
    · subst h1
      rw [if_pos rfl]
      simp [domGet]
    · have h2' : ¬(x = ek) := fun h3 => h1 h3.symm
      have h2 : x ∈ d.map Prod.fst := by simpa [h2'] using h
      rw [if_neg (by simpa using h1)]
      simp only [domGet]
      rw [if_neg h1]
      simpa [domSet] using ih h2

theorem domSet_not_mem (d : Domains) (x : Variable) (ws : List Word)
    (h : x ∉ d.map Prod.fst) : domSet d x ws = d := by
  induction d with
  | nil => simp [domSet]
  | cons e d ih =>
    obtain ⟨ek, ws2⟩ := e
    simp only [List.map_cons, List.mem_cons] at h
    push_neg at h
    have h1 : ¬(ek = x) := fun h2 => h.1 h2.symm
    have h2 := ih h.2
    simp only [domSet, List.map_cons] at h2 ⊢
    rw [if_neg (by simpa using h1), h2]

/-! ### The order underlying the select key, and Python's `min` as a fold -/

/-- The non-strict order corresponding to Python's tuple comparison on the
`(domain size, -degree)` key. -/
def keyLe (a b : Nat × Int) : Prop := a.1 < b.1 ∨ (a.1 = b.1 ∧ a.2 ≤ b.2)

theorem keyLe_refl (a : Nat × Int) : keyLe a a := Or.inr ⟨rfl, le_refl _⟩

theorem keyLe_trans {a b c : Nat × Int} (h1 : keyLe a b) (h2 : keyLe b c) : keyLe a c := by
  rcases h1 with h1 | h1 <;> rcases h2 with h2 | h2
  · exact Or.inl (lt_trans h1 h2)
  · exact Or.inl (h2.1 ▸ h1)
  · exact Or.inl (h1.1 ▸ h2)
  · exact Or.inr ⟨h1.1.trans h2.1, le_trans h1.2 h2.2⟩

theorem keyLtB_true_keyLe {a b : Nat × Int} (h : keyLtB a b = true) : keyLe a b := by
  simp [keyLtB] at h
  rcases h with h | h
  · exact Or.inl h
  · exact Or.inr ⟨h.1, le_of_lt h.2⟩

theorem keyLtB_false_keyLe {a b : Nat × Int} (h : keyLtB a b = false) : keyLe b a := by
  simp [keyLtB] at h
  by_cases h1 : b.1 < a.1
  · exact Or.inl h1
  · have h2 : a.1 = b.1 := by omega
    have h3 := h.2 h2
    exact Or.inr ⟨h2.symm, by omega⟩

theorem foldl_min_mem {α : Type} (f : α → Nat × Int) (v : α) (vs : List α) :
    vs.foldl (fun best y => if keyLtB (f y) (f best) then y else best) v ∈ v :: vs := by
  induction vs generalizing v with
  | nil => simp
  | cons x xs ih =>
    simp only [List.foldl_cons]
    by_cases h : keyLtB (f x) (f v) = true
    · rw [if_pos h]
      have h2 := ih x
      simp only [List.mem_cons] at h2 ⊢
      tauto
    · rw [if_neg h]
      have h2 := ih v
      simp only [List.mem_cons] at h2 ⊢
      tauto

theorem foldl_min_le {α : Type} (f : α → Nat × Int) (v : α) (vs : List α) :
    ∀ w ∈ v :: vs,
      keyLe (f (vs.foldl (fun best y => if keyLtB (f y) (f best) then y else best) v)) (f w) := by
  induction vs generalizing v with
  | nil =>
    intro w hw
    simp at hw
    subst hw
    exact keyLe_refl _
  | cons x xs ih =>
    intro w hw
    simp only [List.foldl_cons]
    by_cases h : keyLtB (f x) (f v) = true
    · rw [if_pos h]
      rcases List.mem_cons.mp hw with h1 | h1
      · rw [h1]
        exact keyLe_trans (ih x x (List.mem_cons_self x xs)) (keyLtB_true_keyLe h)
      · exact ih x w h1
    · rw [if_neg h]
      rcases List.mem_cons.mp hw with h1 | h1
      · rw [h1]
        exact ih v v (List.mem_cons_self v xs)
      · rcases List.mem_cons.mp h1 with h2 | h2
        · rw [h2]
          exact keyLe_trans (ih v v (List.mem_cons_self v xs))
            (keyLtB_false_keyLe (by simpa using h))
        · exact ih v w (List.mem_cons_of_mem v h2)

/-! ### Python's stable `sorted`, as insertion sort -/

theorem mem_insertSorted (k : Word → Nat) (x z : Word) (l : List Word) :
    z ∈ insertSorted k x l ↔ z = x ∨ z ∈ l := by
  induction l with
  | nil => simp [insertSorted]
  | cons y ys ih =>
    by_cases h : k x ≤ k y
    · simp only [insertSorted, if_pos h, List.mem_cons]
    · simp only [insertSorted, if_neg h, List.mem_cons, ih]
      tauto

theorem insertSorted_perm (k : Word → Nat) (x : Word) (l : List Word) :
    List.Perm (insertSorted k x l) (x :: l) := by
  induction l with
  | nil => simp [insertSorted]
  | cons y ys ih =>
    simp only [insertSorted]
    by_cases h : k x ≤ k y
    · rw [if_pos h]
    · rw [if_neg h]
      exact (List.Perm.cons y ih).trans (List.Perm.swap x y ys)

theorem insertSorted_pairwise (k : Word → Nat) (x : Word) (l : List Word)
    (h : l.Pairwise (fun a b => k a ≤ k b)) :
    (insertSorted k x l).Pairwise (fun a b => k a ≤ k b) := by
  induction l with
  | nil => simp [insertSorted]
  | cons y ys ih =>
    rcases List.pairwise_cons.mp h with ⟨hy, hys⟩
    simp only [insertSorted]
    by_cases hle : k x ≤ k y
    · rw [if_pos hle]
      refine List.pairwise_cons.mpr ⟨?_, h⟩
      intro z hz
      rcases List.mem_cons.mp hz with h1 | h1
      · subst h1; exact hle
      · exact le_trans hle (hy z h1)
    · rw [if_neg hle]
      refine List.pairwise_cons.mpr ⟨?_, ih hys⟩
      intro z hz
      rcases (mem_insertSorted k x z ys).mp hz with h1 | h1
      · subst h1; omega
      · exact hy z h1

theorem sortByKey_perm (k : Word → Nat) (l : List Word) :
    List.Perm (sortByKey k l) l := by
  induction l with
  | nil => simp [sortByKey]
  | cons x xs ih =>
    simp only [sortByKey]
    exact (insertSorted_perm k x _).trans (List.Perm.cons x ih)

theorem sortByKey_pairwise (k : Word → Nat) (l : List Word) :
    (sortByKey k l).Pairwise (fun a b => k a ≤ k b) := by
  induction l with
  | nil => simp [sortByKey]
  | cons x xs ih => exact insertSorted_pairwise k x _ ih

/-! ### Arc consistency: properties of `revise` -/

/-- The arc-consistency property of one ordered pair (spec section 8): every
remaining word of `x`'s domain has a supporting word in `y`'s domain at the
recorded overlap. -/
def arcConsistentOn (p : Puzzle) (d : Domains) (x y : Variable) : Prop :=
  ∀ i j, p.overlaps x y = some (i, j) →
    ∀ vx ∈ domGet d x, ∃ vy ∈ domGet d y, charAt vx i = charAt vy j

theorem mem_neighbors (p : Puzzle) (x z : Variable) :
    z ∈ neighbors p x ↔ z ∈ p.vars ∧ z ≠ x ∧ (p.overlaps x z).isSome := by
  simp [neighbors, List.mem_filter, and_assoc]

theorem revise_none (p : Puzzle) (d : Domains) (x y : Variable)
    (h : p.overlaps x y = none) : revise p d x y = (d, false) := by
  simp [revise, h]

theorem revise_fst_cases (p : Puzzle) (d : Domains) (x y : Variable) :
    (revise p d x y).1 = d ∨
      ∃ ws, (revise p d x y).1 = domSet d x ws ∧ ws ⊆ domGet d x := by
  cases ho : p.overlaps x y with
  | none => exact Or.inl (by simp only [revise, ho])
  | some ij =>
    obtain ⟨i, j⟩ := ij
    by_cases he : ((domGet d x).filter
        (fun vx => !((domGet d y).any (fun vy => decide (charAt vx i = charAt vy j))))).isEmpty
    · left
      simp only [revise, ho, if_pos he]
    · right
      refine ⟨(domGet d x).filter (fun vx => decide (vx ∉ (domGet d x).filter
          (fun vx => !((domGet d y).any (fun vy => decide (charAt vx i = charAt vy j)))))),
        ?_, ?_⟩
      · simp only [revise, ho, if_neg he]
      · exact fun a ha => (List.mem_filter.mp ha).1

theorem revise_subset (p : Puzzle) (d : Domains) (x y v : Variable) :
    domGet (revise p d x y).1 v ⊆ domGet d v := by
  rcases revise_fst_cases p d x y with h | ⟨ws, h, hsub⟩
  · rw [h]
    exact fun a ha => ha
  · rw [h]
    by_cases hv : v = x
    · subst hv
      by_cases hm : v ∈ d.map Prod.fst
      · rw [domGet_domSet_self _ _ _ hm]
        exact hsub
      · rw [domSet_not_mem _ _ _ hm]
        exact fun a ha => ha
    · rw [domGet_domSet_ne _ _ _ _ hv]
      exact fun a ha => ha

theorem revise_frame (p : Puzzle) (d : Domains) (x y v : Variable) (hv : v ≠ x) :
    domGet (revise p d x y).1 v = domGet d v := by
  rcases revise_fst_cases p d x y with h | ⟨ws, h, hsub⟩
  · rw [h]
  · rw [h, domGet_domSet_ne _ _ _ _ hv]

theorem revise_keys (p : Puzzle) (d : Domains) (x y : Variable) :
    (revise p d x y).1.map Prod.fst = d.map Prod.fst := by
  rcases revise_fst_cases p d x y with h | ⟨ws, h, hsub⟩
  · rw [h]
  · rw [h, domSet_keys]

theorem revise_snd_false (p : Puzzle) (d : Domains) (x y : Variable)
    (h : (revise p d x y).2 = false) : (revise p d x y).1 = d := by
  cases ho : p.overlaps x y with
  | none => simp only [revise, ho]
  | some ij =>
    obtain ⟨i, j⟩ := ij
    by_cases he : ((domGet d x).filter
        (fun vx => !((domGet d y).any (fun vy => decide (charAt vx i = charAt vy j))))).isEmpty
    · simp only [revise, ho, if_pos he]
    · exact absurd h (by simp only [revise, ho, if_neg he]; simp)

theorem revise_arcOK (p : Puzzle) (d : Domains) (x y : Variable) (hxy : x ≠ y) :
    arcConsistentOn p (revise p d x y).1 x y := by
  intro i j ho vx hvx
  have hyne : y ≠ x := fun h => hxy h.symm
  rw [revise_frame p d x y y hyne]
  by_cases he : ((domGet d x).filter
      (fun vx => !((domGet d y).any (fun vy => decide (charAt vx i = charAt vy j))))).isEmpty
  · simp only [revise, ho, if_pos he] at hvx
    have h2 : ((domGet d x).filter
        (fun vx => !((domGet d y).any (fun vy => decide (charAt vx i = charAt vy j))))) = [] := by
      simpa using he
    by_cases hs : (domGet d y).any (fun vy => decide (charAt vx i = charAt vy j)) = true
    · obtain ⟨vy, hvy, hd⟩ := List.any_eq_true.mp hs
      exact ⟨vy, hvy, of_decide_eq_true hd⟩
    · exfalso
      have h3 : vx ∈ ((domGet d x).filter
          (fun vx => !((domGet d y).any (fun vy => decide (charAt vx i = charAt vy j))))) :=
        List.mem_filter.mpr ⟨hvx, by simp [hs]⟩
      rw [h2] at h3
      simp at h3
  · simp only [revise, ho, if_neg he] at hvx
    by_cases hm : x ∈ d.map Prod.fst
    · rw [domGet_domSet_self _ _ _ hm] at hvx
      have h4 := List.mem_filter.mp hvx
      have h5 : vx ∉ ((domGet d x).filter
          (fun vx => !((domGet d y).any (fun vy => decide (charAt vx i = charAt vy j))))) :=
        of_decide_eq_true h4.2
      by_cases hs : (domGet d y).any (fun vy => decide (charAt vx i = charAt vy j)) = true
      · obtain ⟨vy, hvy, hd⟩ := List.any_eq_true.mp hs
        exact ⟨vy, hvy, of_decide_eq_true hd⟩
      · exact absurd (List.mem_filter.mpr ⟨h4.1, by simp [hs]⟩) h5
    · rw [domSet_not_mem _ _ _ hm, domGet_not_mem _ _ hm] at hvx
      simp at hvx

theorem revise_keeps_supported (p : Puzzle) (d : Domains) (x y : Variable) (i j : Nat)
    (ho : p.overlaps x y = some (i, j)) (vx : Word) (hvx : vx ∈ domGet d x)
    (hsup : ∃ vy ∈ domGet d y, charAt vx i = charAt vy j) :
    vx ∈ domGet (revise p d x y).1 x := by
  by_cases he : ((domGet d x).filter
      (fun vx => !((domGet d y).any (fun vy => decide (charAt vx i = charAt vy j))))).isEmpty
  · simp only [revise, ho, if_pos he]
    exact hvx
  · simp only [revise, ho, if_neg he]
    by_cases hm : x ∈ d.map Prod.fst
    · rw [domGet_domSet_self _ _ _ hm]
      refine List.mem_filter.mpr ⟨hvx, decide_eq_true ?_⟩
      intro hmem
      have h2 := (List.mem_filter.mp hmem).2
      obtain ⟨vy, hvy, heq⟩ := hsup
      simp at h2
      exact h2 vy hvy heq
    · rw [domSet_not_mem _ _ _ hm]
      exact hvx

theorem revise_preserve_other (p : Puzzle) (d : Domains) (x y u v : Variable) (hv : v ≠ x)
    (h : arcConsistentOn p d u v) : arcConsistentOn p (revise p d x y).1 u v := by
  intro i j ho vu hvu
  rw [revise_frame p d x y v hv]
  exact h i j ho vu (revise_subset p d x y u hvu)

theorem revise_preserve_yx (p : Puzzle) (d : Domains) (x y : Variable) (hxy : x ≠ y)
    (i j : Nat) (hoxy : p.overlaps x y = some (i, j)) (hoyx : p.overlaps y x = some (j, i))
    (h : arcConsistentOn p d y x) : arcConsistentOn p (revise p d x y).1 y x := by
  intro a b ho vy hvy
  rw [hoyx] at ho
  simp only [Option.some.injEq, Prod.mk.injEq] at ho
  obtain ⟨ha, hb⟩ := ho
  subst ha
  subst hb
  have hyne : y ≠ x := fun h2 => hxy h2.symm
  rw [revise_frame p d x y y hyne] at hvy
  obtain ⟨vx, hvx, heq⟩ := h j i hoyx vy hvy
  exact ⟨vx, revise_keeps_supported p d x y i j hoxy vx hvx ⟨vy, hvy, heq.symm⟩, heq⟩

/-! ### Properties of `ac3` -/

theorem ac3_subset (p : Puzzle) :
    ∀ fuel q d d' b, ac3 p fuel q d = some (d', b) → ∀ v, domGet d' v ⊆ domGet d v := by
  intro fuel
  induction fuel with
  | zero => intro q d d' b h; simp [ac3] at h
  | succ fuel ih =>
    intro q d d' b h v
    cases q with
    | nil =>
      simp only [ac3, Option.some.injEq, Prod.mk.injEq] at h
      rw [← h.1]
      exact fun a ha => ha
    | cons arc rest =>
      obtain ⟨X, Y⟩ := arc
      simp only [ac3] at h
      by_cases hr : (revise p d X Y).2 = true
      · rw [if_pos hr] at h
        by_cases he2 : (domGet (revise p d X Y).1 X).isEmpty = true
        · rw [if_pos he2] at h
          simp only [Option.some.injEq, Prod.mk.injEq] at h
          rw [← h.1]
          exact revise_subset p d X Y v
        · rw [if_neg he2] at h
          exact fun a ha => revise_subset p d X Y v (ih _ _ _ _ h v ha)
      · rw [if_neg hr] at h
        have hd : (revise p d X Y).1 = d := revise_snd_false p d X Y (by simpa using hr)
        rw [hd] at h
        exact ih _ _ _ _ h v

theorem ac3_keys (p : Puzzle) :
    ∀ fuel q d d' b, ac3 p fuel q d = some (d', b) →
      d'.map Prod.fst = d.map Prod.fst := by
  intro fuel
  induction fuel with
  | zero => intro q d d' b h; simp [ac3] at h
  | succ fuel ih =>
    intro q d d' b h
    cases q with
    | nil =>
      simp only [ac3, Option.some.injEq, Prod.mk.injEq] at h
      rw [← h.1]
    | cons arc rest =>
      obtain ⟨X, Y⟩ := arc
      simp only [ac3] at h
      by_cases hr : (revise p d X Y).2 = true
      · rw [if_pos hr] at h
        by_cases he2 : (domGet (revise p d X Y).1 X).isEmpty = true
        · rw [if_pos he2] at h
          simp only [Option.some.injEq, Prod.mk.injEq] at h
          rw [← h.1]
          exact revise_keys p d X Y
        · rw [if_neg he2] at h
          rw [ih _ _ _ _ h]
          exact revise_keys p d X Y
      · rw [if_neg hr] at h
        have hd : (revise p d X Y).1 = d := revise_snd_false p d X Y (by simpa using hr)
        rw [hd] at h
        exact ih _ _ _ _ h

theorem ac3_false_empty (p : Puzzle) :
    ∀ fuel q d d', ac3 p fuel q d = some (d', false) →
      (∀ e ∈ q, e.1 ∈ p.vars) → ∃ X ∈ p.vars, domGet d' X = [] := by
  intro fuel
  induction fuel with
  | zero => intro q d d' h; simp [ac3] at h
  | succ fuel ih =>
    intro q d d' h hq
    cases q with
    | nil =>
      simp only [ac3, Option.some.injEq, Prod.mk.injEq] at h
      exact absurd h.2 (by simp)
    | cons arc rest =>
      obtain ⟨X, Y⟩ := arc
      simp only [ac3] at h
      by_cases hr : (revise p d X Y).2 = true
      · rw [if_pos hr] at h
        by_cases he2 : (domGet (revise p d X Y).1 X).isEmpty = true
        · rw [if_pos he2] at h
          simp only [Option.some.injEq, Prod.mk.injEq] at h
          refine ⟨X, hq (X, Y) (List.mem_cons_self _ _), ?_⟩
          rw [← h.1]
          simpa using he2
        · rw [if_neg he2] at h
          refine ih _ _ _ h ?_
          intro e he
          rcases List.mem_append.mp he with h1 | h1
          · exact hq e (List.mem_cons_of_mem _ h1)
          · obtain ⟨Z, hZ, hze⟩ := List.mem_map.mp h1
            rw [← hze]
            exact ((mem_neighbors p X Z).mp (List.mem_filter.mp hZ).1).1
      · rw [if_neg hr] at h
        have hd : (revise p d X Y).1 = d := revise_snd_false p d X Y (by simpa using hr)
        rw [hd] at h
        exact ih _ _ _ h (fun e he => hq e (List.mem_cons_of_mem _ he))

/-- Well-formedness of the overlap relation on the puzzle's variables, from
the spec's data model (section 3): the relation is queried symmetrically with
the indices swapped. -/
def OverlapSym (p : Puzzle) : Prop :=
  ∀ x ∈ p.vars, ∀ y ∈ p.vars, p.overlaps y x = (p.overlaps x y).map (fun ij => (ij.2, ij.1))

theorem overlapSym_some (p : Puzzle) (hs : OverlapSym p) (x y : Variable)
    (hx : x ∈ p.vars) (hy : y ∈ p.vars) (i j : Nat)
    (h : p.overlaps x y = some (i, j)) : p.overlaps y x = some (j, i) := by
  rw [hs x hx y hy, h]
  rfl

theorem mem_neighbors_symm (p : Puzzle) (hs : OverlapSym p) (x y : Variable)
    (hx : x ∈ p.vars) (hy : y ∈ neighbors p x) : x ∈ neighbors p y := by
  rcases (mem_neighbors p x y).mp hy with ⟨hyv, hyx, hov⟩
  refine (mem_neighbors p y x).mpr ⟨hx, fun h => hyx h.symm, ?_⟩
  rw [hs x hx y hyv]
  simpa using hov

/-- The AC-3 loop invariant: every neighbor arc is either still queued or
already arc-consistent.  On success of `ac3` the queue is empty, so every
neighbor arc is arc-consistent. -/
theorem ac3_invariant (p : Puzzle) (hs : OverlapSym p) :
    ∀ fuel q d d',
      (∀ e ∈ q, e.1 ∈ p.vars ∧ e.2 ∈ neighbors p e.1) →
      (∀ x ∈ p.vars, ∀ y ∈ neighbors p x, (x, y) ∈ q ∨ arcConsistentOn p d x y) →
      ac3 p fuel q d = some (d', true) →
      ∀ x ∈ p.vars, ∀ y ∈ neighbors p x, arcConsistentOn p d' x y := by
  intro fuel
  induction fuel with
  | zero => intro q d d' _ _ h; simp [ac3] at h
  | succ fuel ih =>
    intro q d d' hwf hinv h
    cases q with
    | nil =>
      simp only [ac3, Option.some.injEq, Prod.mk.injEq] at h
      intro x hx y hy
      rcases hinv x hx y hy with h3 | h3
      · simp at h3
      · rw [← h.1]
        exact h3
    | cons arc rest =>
      obtain ⟨X, Y⟩ := arc
      have hXY := hwf (X, Y) (List.mem_cons_self _ _)
      have hXv : X ∈ p.vars := hXY.1
      have hYnb : Y ∈ neighbors p X := hXY.2
      have hYv : Y ∈ p.vars := ((mem_neighbors p X Y).mp hYnb).1
      have hYX : Y ≠ X := ((mem_neighbors p X Y).mp hYnb).2.1
      have hXYne : X ≠ Y := fun h2 => hYX h2.symm
      simp only [ac3] at h
      by_cases hr : (revise p d X Y).2 = true
      · rw [if_pos hr] at h
        by_cases he2 : (domGet (revise p d X Y).1 X).isEmpty = true
        · rw [if_pos he2] at h
          simp only [Option.some.injEq, Prod.mk.injEq] at h
          exact absurd h.2 (by simp)
        · rw [if_neg he2] at h
          refine ih _ _ d' ?_ ?_ h
          · intro e he
            rcases List.mem_append.mp he with h1 | h1
            · exact hwf e (List.mem_cons_of_mem _ h1)
            · obtain ⟨Z, hZ, hze⟩ := List.mem_map.mp h1
              have hZnb : Z ∈ neighbors p X := (List.mem_filter.mp hZ).1
              have hZv : Z ∈ p.vars := ((mem_neighbors p X Z).mp hZnb).1
              rw [← hze]
              exact ⟨hZv, mem_neighbors_symm p hs X Z hXv hZnb⟩
          · intro x hx y hy
            by_cases hxy2 : (x, y) = (X, Y)
            · right
              have hxX : x = X := (Prod.mk.injEq _ _ _ _ ▸ hxy2).1
              have hyY : y = Y := (Prod.mk.injEq _ _ _ _ ▸ hxy2).2
              rw [hxX, hyY]
              exact revise_arcOK p d X Y hXYne
            · rcases hinv x hx y hy with h1 | h1
              · rcases List.mem_cons.mp h1 with h2 | h2
                · exact absurd h2 hxy2
                · exact Or.inl (List.mem_append_left _ h2)
              · by_cases hyX : y = X
                · by_cases hxY : x = Y
                  · right
                    rw [hyX, hxY] at h1 ⊢
                    obtain ⟨ij, hij⟩ :=
                      Option.isSome_iff_exists.mp ((mem_neighbors p X Y).mp hYnb).2.2
                    obtain ⟨i, j⟩ := ij
                    exact revise_preserve_yx p d X Y hXYne i j hij
                      (overlapSym_some p hs X Y hXv hYv i j hij) h1
                  · left
                    rw [hyX] at hy
                    refine List.mem_append_right _ ?_
                    refine List.mem_map.mpr ⟨x, ?_, by rw [hyX]⟩
                    refine List.mem_filter.mpr ⟨?_, by simpa using hxY⟩
                    exact mem_neighbors_symm p hs x X hx hy
                · right
                  exact revise_preserve_other p d X Y x y hyX h1
      · rw [if_neg hr] at h
        have hd : (revise p d X Y).1 = d := revise_snd_false p d X Y (by simpa using hr)
        rw [hd] at h
        refine ih rest d d' (fun e he => hwf e (List.mem_cons_of_mem _ he)) ?_ h
        intro x hx y hy
        rcases hinv x hx y hy with h1 | h1
        · rcases List.mem_cons.mp h1 with h2 | h2
          · right
            have hxX : x = X := (Prod.mk.injEq _ _ _ _ ▸ h2).1
            have hyY : y = Y := (Prod.mk.injEq _ _ _ _ ▸ h2).2
            rw [hxX, hyY]
            have h3 := revise_arcOK p d X Y hXYne
            rwa [hd] at h3
          · exact Or.inl h2
        · exact Or.inr h1

theorem mem_get_arcs (p : Puzzle) (x y : Variable) :
    (x, y) ∈ get_arcs p ↔ x ∈ p.vars ∧ y ∈ neighbors p x := by
  simp only [get_arcs, List.mem_flatMap, List.mem_map, Prod.mk.injEq]
  constructor
  · rintro ⟨X, hX, Y, hY, h1, h2⟩
    subst h1
    subst h2
    exact ⟨hX, hY⟩
  · rintro ⟨hx, hy⟩
    exact ⟨x, hx, y, hy, rfl, rfl⟩

/-! ### Characterizing the `consistent` predicate -/

theorem dedup_length_iff {α : Type} [DecidableEq α] (l : List α) :
    l.dedup.length = l.length ↔ l.Nodup := by
  constructor
  · intro h
    have h2 : l.dedup = l := (List.dedup_sublist l).eq_of_length h
    rw [← h2]
    exact List.nodup_dedup l
  · intro h
    rw [List.dedup_eq_self.mpr h]

theorem nodup_option_iff {α : Type} [DecidableEq α] (l : List (Option α)) :
    l.Nodup ↔ l.reduceOption.Nodup ∧ l.countP (fun x => decide (x = none)) ≤ 1 := by
  induction l with
  | nil => simp
  | cons o t ih =>
    cases o with
    | none =>
      rw [List.nodup_cons, List.reduceOption_cons_of_none,
        List.countP_cons_of_pos _ _ (by simp)]
      constructor
      · rintro ⟨hnm, hnd⟩
        have hc : t.countP (fun x => decide (x = none)) = 0 := by
          rw [List.countP_eq_zero]
          intro a ha
          simp only [decide_eq_true_eq]
          intro hae
          rw [hae] at ha
          exact hnm ha
        rw [hc]
        exact ⟨(ih.mp hnd).1, by omega⟩
      · rintro ⟨hr, hc⟩
        have hc0 : t.countP (fun x => decide (x = none)) = 0 := by omega
        have hnm : (none : Option α) ∉ t := by
          intro hm
          have h2 : 0 < t.countP (fun x => decide (x = none)) :=
            List.countP_pos_iff.mpr ⟨none, hm, by simp⟩
          omega
        have hnd : t.Nodup := ih.mpr ⟨hr, by omega⟩
        exact ⟨hnm, hnd⟩
    | some a =>
      rw [List.nodup_cons, List.reduceOption_cons_of_some,
        List.countP_cons_of_neg _ _ (by simp), List.nodup_cons]
      constructor
      · rintro ⟨hnm, hnd⟩
        exact ⟨⟨fun hm => hnm (List.reduceOption_mem_iff.mp hm), (ih.mp hnd).1⟩, (ih.mp hnd).2⟩
      · rintro ⟨⟨hnm, hr⟩, hc⟩
        exact ⟨fun hm => hnm (List.reduceOption_mem_iff.mpr hm), ih.mpr ⟨hr, hc⟩⟩

theorem consistent_eq_true_iff (p : Puzzle) (a : Assignment) :
    consistent p a = true ↔
      (a.map Prod.snd).Nodup ∧
      ∀ e ∈ a, ∀ w, e.2 = some w →
        w.length = e.1.length ∧
        ∀ other ∈ neighbors p e.1, ∀ ow, lookupA a other = some (some ow) →
          ∀ i j, p.overlaps e.1 other = some (i, j) → charAt w i = charAt ow j := by
  unfold consistent
  by_cases hd : (a.map Prod.snd).dedup.length ≠ (a.map Prod.snd).length
  · rw [if_pos hd]
    constructor
    · intro h
      cases h
    · rintro ⟨hn, -⟩
      exact absurd ((dedup_length_iff _).mpr hn) hd
  · rw [if_neg hd]
    push_neg at hd
    have hnd : (a.map Prod.snd).Nodup := (dedup_length_iff _).mp hd
    rw [List.all_eq_true]
    constructor
    · intro h
      refine ⟨hnd, ?_⟩
      intro e he w hw
      have h2 := h e he
      simp only [hw] at h2
      by_cases hl : w.length ≠ e.1.length
      · rw [if_pos hl] at h2
        cases h2
      · push_neg at hl
        rw [if_neg (not_not_intro hl)] at h2
        rw [List.all_eq_true] at h2
        refine ⟨hl, ?_⟩
        intro other ho ow hlk i j hov
        have h3 := h2 other ho
        simp only [hlk, hov] at h3
        exact of_decide_eq_true h3
    · rintro ⟨-, h⟩
      intro e he
      obtain ⟨ev, eo⟩ := e
      cases eo with
      | none => rfl
      | some w =>
        obtain ⟨hl, hov⟩ := h (ev, some w) he w rfl
        have hgoal : ∀ other ∈ neighbors p ev, (match lookupA a other with
            | none => true
            | some none => true
            | some (some ow) =>
              match p.overlaps ev other with
              | none => true
              | some (i, j) => decide (charAt w i = charAt ow j)) = true := by
          intro other ho
          cases hlk : lookupA a other with
          | none => rfl
          | some o2 =>
            cases o2 with
            | none => rfl
            | some ow =>
              cases hov2 : p.overlaps ev other with
              | none => rfl
              | some ij =>
                obtain ⟨i, j⟩ := ij
                exact decide_eq_true (hov other ho ow hlk i j hov2)
        show (if List.length w ≠ ev.length then false
          else (neighbors p ev).all fun other =>
            match lookupA a other with
            | none => true
            | some none => true
            | some (some ow) =>
              match p.overlaps ev other with
              | none => true
              | some (i, j) => decide (charAt w i = charAt ow j)) = true
        rw [if_neg (not_not_intro hl)]
        exact List.all_eq_true.mpr hgoal

/-- The consistency conditions as claim C2 words them, amended: the
duplicate-value check of generate.py line 199 also counts the `None`
markers, so at most one entry may be unassigned. -/
def ConsistentSpec (p : Puzzle) (a : Assignment) : Prop :=
  (a.map Prod.snd).reduceOption.Nodup
  ∧ (a.map Prod.snd).countP (fun x => decide (x = none)) ≤ 1
  ∧ (∀ v w, (v, some w) ∈ a → w.length = v.length)
  ∧ (∀ v w, (v, some w) ∈ a → ∀ u ∈ neighbors p v, ∀ wu, (u, some wu) ∈ a →
      ∀ i j, p.overlaps v u = some (i, j) → charAt w i = charAt wu j)

theorem consistent_iff_spec (p : Puzzle) (a : Assignment)
    (hk : (a.map Prod.fst).Nodup) : consistent p a = true ↔ ConsistentSpec p a := by
  rw [consistent_eq_true_iff]
  unfold ConsistentSpec
  rw [nodup_option_iff]
  constructor
  · rintro ⟨⟨hr, hc⟩, h⟩
    refine ⟨hr, hc, ?_, ?_⟩
    · intro v w hm
      exact (h (v, some w) hm w rfl).1
    · intro v w hm u hu wu hmu i j hov
      exact (h (v, some w) hm w rfl).2 u hu wu
        (lookupA_of_mem_nodup a u (some wu) hk hmu) i j hov
  · rintro ⟨hr, hc, hlen, hovl⟩
    refine ⟨⟨hr, hc⟩, ?_⟩
    intro e he w hw
    obtain ⟨ev, eo⟩ := e
    simp only at hw
    subst hw
    refine ⟨hlen _ _ he, ?_⟩
    intro other ho ow hlk i j hov2
    exact hovl _ _ he other ho ow (mem_of_lookupA a other (some ow) hlk) i j hov2

/-! ### Properties of the backtracking search -/

theorem tryLoop_ok_true (p : Puzzle) (var : Variable)
    (step : Assignment → Except BTErr (Assignment × Bool))
    (hstep : ∀ a1 a2, step a1 = .ok (a2, true) →
      assignment_complete p a2 = true ∧ (consistent p a2 = true ∨ a2 = a1)) :
    ∀ ws a aF, tryLoop p var step ws a = .ok (aF, true) →
      assignment_complete p aF = true ∧ consistent p aF = true := by
  intro ws
  induction ws with
  | nil =>
    intro a aF h
    simp only [tryLoop, Except.ok.injEq, Prod.mk.injEq] at h
    exact absurd h.2 (by simp)
  | cons w ws ih =>
    intro a aF h
    simp only [tryLoop] at h
    by_cases hc : consistent p (setA a var (some w)) = true
    · rw [if_pos hc] at h
      cases hstepres : step (setA a var (some w)) with
      | error e =>
        rw [hstepres] at h
        cases h
      | ok r =>
        obtain ⟨a2, b2⟩ := r
        rw [hstepres] at h
        cases b2 with
        | true =>
          simp only [Except.ok.injEq, Prod.mk.injEq] at h
          obtain ⟨hcomp, hcon⟩ := hstep _ _ hstepres
          have hcona2 : consistent p a2 = true := by
            rcases hcon with hcon | hcon
            · exact hcon
            · rw [hcon]
              exact hc
          rw [← h.1]
          exact ⟨hcomp, hcona2⟩
        | false =>
          exact ih _ _ h
    · rw [if_neg hc] at h
      exact ih _ _ h

theorem backtrack_ok_true (p : Puzzle) (d : Domains) :
    ∀ fuel a aF, backtrack p d fuel a = .ok (aF, true) →
      assignment_complete p aF = true ∧ (consistent p aF = true ∨ aF = a) := by
  intro fuel
  induction fuel with
  | zero =>
    intro a aF h
    simp [backtrack] at h
  | succ fuel ih =>
    intro a aF h
    simp only [backtrack] at h
    by_cases hcomp : assignment_complete p a = true
    · rw [if_pos hcomp] at h
      simp only [Except.ok.injEq, Prod.mk.injEq] at h
      rw [← h.1]
      exact ⟨hcomp, Or.inr rfl⟩
    · rw [if_neg hcomp] at h
      cases hsel : select_unassigned_variable d a with
      | none =>
        simp [hsel] at h
      | some var =>
        simp only [hsel] at h
        have h2 := tryLoop_ok_true p var (backtrack p d fuel)
          (fun a1 a2 hh => ih a1 a2 hh) _ _ _ h
        exact ⟨h2.1, Or.inl h2.2⟩

theorem tryLoop_keys_nodup (p : Puzzle) (var : Variable)
    (step : Assignment → Except BTErr (Assignment × Bool))
    (hstep : ∀ a1 a2 b, step a1 = .ok (a2, b) →
      (a1.map Prod.fst).Nodup → (a2.map Prod.fst).Nodup) :
    ∀ ws a aF b, tryLoop p var step ws a = .ok (aF, b) →
      (a.map Prod.fst).Nodup → (aF.map Prod.fst).Nodup := by
  intro ws
  induction ws with
  | nil =>
    intro a aF b h hk
    simp only [tryLoop, Except.ok.injEq, Prod.mk.injEq] at h
    rw [← h.1]
    exact hk
  | cons w ws ih =>
    intro a aF b h hk
    simp only [tryLoop] at h
    by_cases hc : consistent p (setA a var (some w)) = true
    · rw [if_pos hc] at h
      cases hstepres : step (setA a var (some w)) with
      | error e =>
        rw [hstepres] at h
        cases h
      | ok r =>
        obtain ⟨a2, b2⟩ := r
        rw [hstepres] at h
        have hk2 : (a2.map Prod.fst).Nodup :=
          hstep _ _ _ hstepres (setA_keys_nodup a var (some w) hk)
        cases b2 with
        | true =>
          simp only [Except.ok.injEq, Prod.mk.injEq] at h
          rw [← h.1]
          exact hk2
        | false =>
          exact ih _ _ _ h (setA_keys_nodup a2 var none hk2)
    · rw [if_neg hc] at h
      exact ih _ _ _ h (setA_keys_nodup _ var none (setA_keys_nodup a var (some w) hk))

theorem backtrack_keys_nodup (p : Puzzle) (d : Domains) :
    ∀ fuel a aF b, backtrack p d fuel a = .ok (aF, b) →
      (a.map Prod.fst).Nodup → (aF.map Prod.fst).Nodup := by
  intro fuel
  induction fuel with
  | zero =>
    intro a aF b h
    simp [backtrack] at h
  | succ fuel ih =>
    intro a aF b h hk
    simp only [backtrack] at h
    by_cases hcomp : assignment_complete p a = true
    · rw [if_pos hcomp] at h
      simp only [Except.ok.injEq, Prod.mk.injEq] at h
      rw [← h.1]
      exact hk
    · rw [if_neg hcomp] at h
      cases hsel : select_unassigned_variable d a with
      | none =>
        simp [hsel] at h
      | some var =>
        simp only [hsel] at h
        exact tryLoop_keys_nodup p var (backtrack p d fuel)
          (fun a1 a2 b2 hh => ih a1 a2 b2 hh) _ _ _ _ h hk

theorem tryLoop_fail_lookup (p : Puzzle) (var : Variable)
    (step : Assignment → Except BTErr (Assignment × Bool)) :
    ∀ ws a aF, ws ≠ [] → tryLoop p var step ws a = .ok (aF, false) →
      lookupA aF var = some none := by
  intro ws
  induction ws with
  | nil =>
    intro a aF h
    exact absurd rfl h
  | cons w ws ih =>
    intro a aF hne h
    simp only [tryLoop] at h
    by_cases hc : consistent p (setA a var (some w)) = true
    · rw [if_pos hc] at h
      cases hstepres : step (setA a var (some w)) with
      | error e =>
        rw [hstepres] at h
        cases h
      | ok r =>
        obtain ⟨a2, b2⟩ := r
        rw [hstepres] at h
        cases b2 with
        | true =>
          simp only [Except.ok.injEq, Prod.mk.injEq] at h
          exact absurd h.2 (by simp)
        | false =>
          cases ws with
          | nil =>
            simp only [tryLoop, Except.ok.injEq, Prod.mk.injEq] at h
            rw [← h.1, lookupA_setA]
            simp
          | cons w2 ws2 =>
            exact ih _ _ (by simp) h
    · rw [if_neg hc] at h
      cases ws with
      | nil =>
        simp only [tryLoop, Except.ok.injEq, Prod.mk.injEq] at h
        rw [← h.1, lookupA_setA]
        simp
      | cons w2 ws2 =>
        exact ih _ _ (by simp) h

/-! ### Properties of variable selection -/

theorem select_some_iff (d : Domains) (a : Assignment) :
    (∃ v, select_unassigned_variable d a = some v) ↔ unassignedList d a ≠ [] := by
  unfold select_unassigned_variable
  cases hu : unassignedList d a with
  | nil => simp
  | cons x xs => simp

theorem select_mem_unassigned (d : Domains) (a : Assignment) (v : Variable)
    (h : select_unassigned_variable d a = some v) : v ∈ unassignedList d a := by
  unfold select_unassigned_variable at h
  cases hu : unassignedList d a with
  | nil =>
    rw [hu] at h
    simp at h
  | cons x xs =>
    rw [hu] at h
    simp only [Option.some.injEq] at h
    rw [← h]
    exact foldl_min_mem (svkey d) x xs

theorem select_min_key (d : Domains) (a : Assignment) (v : Variable)
    (h : select_unassigned_variable d a = some v) :
    ∀ w ∈ unassignedList d a, keyLe (svkey d v) (svkey d w) := by
  unfold select_unassigned_variable at h
  cases hu : unassignedList d a with
  | nil =>
    rw [hu] at h
    simp at h
  | cons x xs =>
    rw [hu] at h
    simp only [Option.some.injEq] at h
    rw [← h]
    exact foldl_min_le (svkey d) x xs

theorem backtrack_fail_leaves_none (p : Puzzle) (d : Domains) (fuel : Nat)
    (a aF : Assignment) (var : Variable)
    (hcomp : assignment_complete p a = false)
    (hsel : select_unassigned_variable d a = some var)
    (hws : order_domain_values p d a var ≠ [])
    (hb : backtrack p d (fuel + 1) a = .ok (aF, false)) :
    lookupA aF var = some none := by
  simp only [backtrack] at hb
  rw [if_neg (by simp [hcomp])] at hb
  simp only [hsel] at hb
  exact tryLoop_fail_lookup p var (backtrack p d fuel) _ _ _ hws hb

theorem none_key_excluded (p : Puzzle) (d : Domains) (a : Assignment) (v : Variable)
    (h : lookupA a v = some none) :
    v ∉ unassignedList d a ∧ (v ∈ p.vars → assignment_complete p a = false) := by
  constructor
  · intro hm
    have h2 := (List.mem_filter.mp hm).2
    simp [keyMem, h] at h2
  · intro hv
    apply Bool.eq_false_iff.mpr
    intro hall
    have h2 := List.all_eq_true.mp hall v hv
    rw [h] at h2
    simp at h2

theorem backtrack_empty_dom (p : Puzzle) (d : Domains) (fuel : Nat)
    (hkeys : d.map Prod.fst = p.vars) (X : Variable) (hX : X ∈ p.vars)
    (hempty : domGet d X = []) :
    backtrack p d (fuel + 1) [] = .ok ([], false) := by
  have hcomp : assignment_complete p [] = false := by
    apply Bool.eq_false_iff.mpr
    intro hall
    have h2 := List.all_eq_true.mp hall X hX
    simp [lookupA] at h2
  have hun : unassignedList d [] = p.vars := by
    unfold unassignedList
    rw [← hkeys]
    apply List.filter_eq_self.mpr
    intro v hv
    simp [keyMem, lookupA]
  obtain ⟨v, hv⟩ := (select_some_iff d []).mpr (by rw [hun]; exact List.ne_nil_of_mem hX)
  have hle := select_min_key d [] v hv X (by rw [hun]; exact hX)
  have hX0 : (domGet d X).length = 0 := by rw [hempty]; rfl
  have hv0 : domGet d v = [] := by
    rcases hle with h1 | h1
    · exfalso
      simp only [svkey, hX0] at h1
      omega
    · apply List.length_eq_zero.mp
      have h2 : (svkey d v).1 = (svkey d X).1 := h1.1
      simpa [svkey, hX0] using h2
  simp only [backtrack]
  rw [if_neg (by simp [hcomp])]
  simp only [hv]
  simp [order_domain_values, hv0, sortByKey, tryLoop]

/-! ### Properties of node consistency enforcement -/

theorem enforce_ok_eq :
    ∀ d d', enforce_node_consistency d = .ok d' →
      d' = d.map (fun e => (e.1, e.2.filter (fun w => decide (w.length = e.1.length)))) := by
  intro d
  induction d with
  | nil =>
    intro d' h
    simp only [enforce_node_consistency, Except.ok.injEq] at h
    rw [← h]
    rfl
  | cons e d ih =>
    obtain ⟨v, ws⟩ := e
    intro d' h
    simp only [enforce_node_consistency] at h
    by_cases hemp : (ws.filter (fun w => decide (w.length = v.length))).isEmpty = true
    · rw [if_pos hemp] at h
      cases h
    · rw [if_neg hemp] at h
      cases hrec : enforce_node_consistency d with
      | error u =>
        simp only [hrec] at h
        cases h
      | ok d2 =>
        simp only [hrec, Except.ok.injEq] at h
        rw [← h]
        simp [ih d2 hrec]

theorem enforce_keys (d d' : Domains) (h : enforce_node_consistency d = .ok d') :
    d'.map Prod.fst = d.map Prod.fst := by
  rw [enforce_ok_eq d d' h, List.map_map]
  rfl

theorem enforce_error_mem :
    ∀ d v, enforce_node_consistency d = .error v →
      ∃ ws, (v, ws) ∈ d ∧ ws.filter (fun w => decide (w.length = v.length)) = [] := by
  intro d
  induction d with
  | nil =>
    intro v h
    simp [enforce_node_consistency] at h
  | cons e d ih =>
    obtain ⟨u, ws⟩ := e
    intro v h
    simp only [enforce_node_consistency] at h
    by_cases hemp : (ws.filter (fun w => decide (w.length = u.length))).isEmpty = true
    · rw [if_pos hemp] at h
      simp only [Except.error.injEq] at h
      subst h
      exact ⟨ws, List.mem_cons_self _ _, by simpa using hemp⟩
    · rw [if_neg hemp] at h
      cases hrec : enforce_node_consistency d with
      | error u2 =>
        simp only [hrec, Except.error.injEq] at h
        subst h
        obtain ⟨ws2, hm, hf⟩ := ih u2 hrec
        exact ⟨ws2, List.mem_cons_of_mem _ hm, hf⟩
      | ok d2 =>
        simp only [hrec] at h
        cases h

theorem enforce_error_exists_iff :
    ∀ d, (∃ u, enforce_node_consistency d = .error u) ↔
      ∃ e ∈ d, e.2.filter (fun w => decide (w.length = e.1.length)) = [] := by
  intro d
  induction d with
  | nil => simp [enforce_node_consistency]
  | cons e d ih =>
    obtain ⟨v, ws⟩ := e
    by_cases hemp : (ws.filter (fun w => decide (w.length = v.length))).isEmpty = true
    · simp only [enforce_node_consistency, if_pos hemp]
      constructor
      · intro
        exact ⟨(v, ws), List.mem_cons_self _ _, by simpa using hemp⟩
      · intro
        exact ⟨v, rfl⟩
    · simp only [enforce_node_consistency, if_neg hemp]
      cases hrec : enforce_node_consistency d with
      | error u =>
        constructor
        · intro
          obtain ⟨e2, he2, hf⟩ := ih.mp ⟨u, hrec⟩
          exact ⟨e2, List.mem_cons_of_mem _ he2, hf⟩
        · intro
          exact ⟨u, rfl⟩
      | ok d2 =>
        constructor
        · rintro ⟨u, hu⟩
          cases hu
        · rintro ⟨e2, he2, hf⟩
          rcases List.mem_cons.mp he2 with h1 | h1
          · exfalso
            rw [h1] at hf
            simp only at hf
            rw [hf] at hemp
            simp at hemp
          · exfalso
            obtain ⟨u, hu⟩ := ih.mpr ⟨e2, h1, hf⟩
            rw [hrec] at hu
            cases hu

theorem solve_malformed (p : Puzzle) (words : List Word) (fuel : Nat) (v : Variable)
    (h : enforce_node_consistency (initDomains p words) = .error v) :
    solve p words fuel = .error (.malformed v) := by
  simp only [solve, h]

/-! ### The value-ordering score -/

/-- The value-ordering score as claim C6 words it: for each candidate, the
number of entries of each unassigned neighbor's domain that are NOT equal to
the candidate (to be compared against the source's `count_conflicts`). -/
def count_conflictsSpec (p : Puzzle) (d : Domains) (a : Assignment) (var : Variable)
    (value : Word) : Nat :=
  (((neighbors p var).filter (fun n => !(keyMem a n))).map
    (fun n => ((domGet d n).filter (fun w => decide (w ≠ value))).length)).sum

/-- The value ordering as claim C6 words it: the domain sorted ascending by
`count_conflictsSpec`. -/
def orderDomainValuesSpec (p : Puzzle) (d : Domains) (a : Assignment) (var : Variable) :
    List Word :=
  sortByKey (count_conflictsSpec p d a var) (domGet d var)

/-- The score the source computes is the number of entries EQUAL to the
candidate: `len(domain) - len([val for val in domain if val != value])`. -/
theorem count_conflicts_eq (p : Puzzle) (d : Domains) (a : Assignment) (var : Variable)
    (value : Word) :
    count_conflicts p d a var value =
      (((neighbors p var).filter (fun n => !(keyMem a n))).map
        (fun n => ((domGet d n).filter (fun w => decide (w = value))).length)).sum := by
  unfold count_conflicts
  congr 1
  apply List.map_congr_left
  intro n hn
  rw [← List.countP_eq_length_filter, ← List.countP_eq_length_filter]
  have h3 := List.length_eq_countP_add_countP (fun w => decide (w = value)) (domGet d n)
  have h4 : (domGet d n).countP (fun a => decide ¬(decide (a = value) = true))
      = (domGet d n).countP (fun w => decide (w ≠ value)) := by
    apply List.countP_congr
    intro w hw
    by_cases h : w = value <;> simp [h]
  rw [h4] at h3
  omega

/-! ### The claims -/

/-- Claim C1 (code bug): backtracking completeness fails on the code.  The
puzzle `pAB` with domain store `dC1` has the complete consistent assignment
`solC1` drawn from the domains, yet `backtrack` started from the empty
assignment raises the `ValueError` of `min` over an empty sequence (rendered
`.error .selectEmpty`) instead of returning a solution: the dead-ended
variable `vB` stays in the assignment mapped to `None`, so
`select_unassigned_variable` never offers it again even though
`assignment_complete` still counts it as unassigned. -/
theorem C1_backtrack_incompleteness :
    backtrack pAB dC1 10 [] = .error .selectEmpty
    ∧ assignment_complete pAB solC1 = true
    ∧ consistent pAB solC1 = true
    ∧ lookupA solC1 vA = some (some wBX) ∧ wBX ∈ domGet dC1 vA
    ∧ lookupA solC1 vB = some (some wBY) ∧ wBY ∈ domGet dC1 vB := by
  decide

/-- Claim C2 (counterexample): adding entries mapped to the unassigned
marker `None` can change the result of `consistent`: the duplicate check of
generate.py line 199 counts the `None` markers, so two unassigned entries
are rejected as "duplicate words" even though the assigned part is
unchanged and fine. -/
theorem C2_counterexample :
    consistent pABC [(vA, some wAX)] = true
    ∧ consistent pABC [(vA, some wAX), (vB, none), (vC, none)] = false := by
  decide

/-- Claim C2 (amended): for an assignment without duplicate keys,
`consistent` returns `True` iff the assigned words are pairwise distinct, AT
MOST ONE entry is the `None` marker (the amendment: the duplicate check also
counts the markers), every assigned word's length equals its variable's
length, and assigned neighboring pairs agree at the recorded overlaps. -/
theorem C2_consistent_characterization (p : Puzzle) (a : Assignment)
    (hk : (a.map Prod.fst).Nodup) :
    consistent p a = true ↔ ConsistentSpec p a :=
  consistent_iff_spec p a hk

theorem C2_witness :
    (([(vA, some wAX)] : Assignment).map Prod.fst).Nodup
    ∧ (consistent pABC [(vA, some wAX)] = true ↔ ConsistentSpec pABC [(vA, some wAX)]) :=
  ⟨by decide, C2_consistent_characterization pABC [(vA, some wAX)] (by decide)⟩

/-- Claim C3 (counterexample): `solve` does NOT short-circuit on AC-3
failure.  On puzzle `pC3` node consistency succeeds, `ac3` over all neighbor
arcs reports unsolvable (`false`, the domain of `vA` empties), and yet the
control flow of `solve` (generate.py line 95 discards the Boolean) still
reaches the `backtrack` call, as `solveRunsBacktrack` records;
the no-solution outcome is produced by `backtrack`, not by a short-circuit. -/
theorem C3_counterexample :
    enforce_node_consistency (initDomains pC3 [wAX, wCZZ]) = .ok [(vA, [wAX]), (vB3, [wCZZ])]
    ∧ ac3 pC3 10 (get_arcs pC3) [(vA, [wAX]), (vB3, [wCZZ])]
        = some ([(vA, []), (vB3, [wCZZ])], false)
    ∧ solveRunsBacktrack pC3 [wAX, wCZZ] 10 = true
    ∧ solve pC3 [wAX, wCZZ] 10 = .ok ([], false) := by
  decide

/-- Claim C3 (amended): when AC-3 over all neighbor arcs reports unsolvable,
`solve` still returns the no-solution outcome (`None`), but not by
short-circuiting: the `ac3` result is ignored and `backtrack` always runs;
it returns `None` immediately because some domain is empty, so the selected
minimum-remaining-values variable has an empty candidate list. -/
theorem C3_no_shortcircuit (p : Puzzle) (words : List Word) (fuel : Nat) (d1 d2 : Domains)
    (he : enforce_node_consistency (initDomains p words) = .ok d1)
    (hac : ac3 p fuel (get_arcs p) d1 = some (d2, false)) :
    solve p words fuel = .ok ([], false) ∧ solveRunsBacktrack p words fuel = true := by
  cases fuel with
  | zero => simp [ac3] at hac
  | succ fuel =>
    have hkeys1 : d1.map Prod.fst = p.vars := by
      rw [enforce_keys _ _ he]
      unfold initDomains
      rw [List.map_map]
      have h2 : (List.map (Prod.fst ∘ fun v => (v, words)) p.vars)
          = List.map id p.vars := List.map_congr_left (fun v hv => rfl)
      rw [h2, List.map_id]
    have hkeys2 : d2.map Prod.fst = p.vars := by
      rw [ac3_keys p _ _ _ _ _ hac, hkeys1]
    obtain ⟨X, hX, hempty⟩ := ac3_false_empty p _ _ _ _ hac (by
      intro e hee
      obtain ⟨x, y⟩ := e
      exact ((mem_get_arcs p x y).mp hee).1)
    have hbt := backtrack_empty_dom p d2 fuel hkeys2 X hX hempty
    constructor
    · simp only [solve, he, hac, hbt]
    · simp only [solveRunsBacktrack, he, hac]

theorem C3_witness :
    solve pC3 [wAX, wCZZ] 10 = .ok ([], false)
    ∧ solveRunsBacktrack pC3 [wAX, wCZZ] 10 = true :=
  C3_no_shortcircuit pC3 [wAX, wCZZ] 10 [(vA, [wAX]), (vB3, [wCZZ])]
    [(vA, []), (vB3, [wCZZ])] (by decide) (by decide)

/-- Claim C4: every complete assignment returned as a solution by
`backtrack` (started from the empty assignment) or by `solve` is valid: it
is complete, no word is assigned to two different variables, every assigned
word's length equals its variable's length, and every neighboring pair with
a recorded overlap agrees on the characters at the recorded indices. -/
theorem C4_solution_valid (p : Puzzle) (d : Domains) (words : List Word) (fuel : Nat)
    (aF : Assignment)
    (hb : backtrack p d fuel [] = .ok (aF, true) ∨ solve p words fuel = .ok (aF, true)) :
    assignment_complete p aF = true
    ∧ (∀ x y wx wy, (x, some wx) ∈ aF → (y, some wy) ∈ aF → x ≠ y → wx ≠ wy)
    ∧ (∀ x wx, (x, some wx) ∈ aF → wx.length = x.length)
    ∧ (∀ x y wx wy i j, (x, some wx) ∈ aF → (y, some wy) ∈ aF → y ∈ neighbors p x →
        p.overlaps x y = some (i, j) → charAt wx i = charAt wy j) := by
  have hbt : ∃ d2, backtrack p d2 fuel [] = .ok (aF, true) := by
    rcases hb with hb | hb
    · exact ⟨d, hb⟩
    · unfold solve at hb
      cases h1 : enforce_node_consistency (initDomains p words) with
      | error v => simp [h1] at hb
      | ok d1 =>
        simp only [h1] at hb
        cases h2 : ac3 p fuel (get_arcs p) d1 with
        | none => simp [h2] at hb
        | some r =>
          obtain ⟨d2, b2⟩ := r
          simp only [h2] at hb
          refine ⟨d2, ?_⟩
          cases h3 : backtrack p d2 fuel [] with
          | error e => cases e <;> simp [h3] at hb
          | ok r2 =>
            simp only [h3, Except.ok.injEq] at hb
            rw [hb]
  obtain ⟨d2, hb2⟩ := hbt
  obtain ⟨hcomp, hcon⟩ := backtrack_ok_true p d2 fuel [] aF hb2
  have hcons : consistent p aF = true := by
    rcases hcon with hcon | hcon
    · exact hcon
    · rw [hcon]
      simp [consistent]
  have hk : (aF.map Prod.fst).Nodup :=
    backtrack_keys_nodup p d2 fuel [] aF true hb2 (by simp)
  obtain ⟨hnd, hforall⟩ := (consistent_eq_true_iff p aF).mp hcons
  refine ⟨hcomp, ?_, ?_, ?_⟩
  · intro x y wx wy hx hy hxy heq
    have h2 := List.inj_on_of_nodup_map hnd hx hy (by simp [heq])
    exact hxy (congrArg Prod.fst h2)
  · intro x wx hx
    exact (hforall (x, some wx) hx wx rfl).1
  · intro x y wx wy i j hx hy hnb hov
    exact (hforall (x, some wx) hx wx rfl).2 y hnb wy
      (lookupA_of_mem_nodup aF y (some wy) hk hy) i j hov

theorem C4_witness :
    assignment_complete pAB [(vA, some wBX), (vB, some wBY)] = true
    ∧ (∀ x y wx wy, (x, some wx) ∈ ([(vA, some wBX), (vB, some wBY)] : Assignment) →
        (y, some wy) ∈ ([(vA, some wBX), (vB, some wBY)] : Assignment) → x ≠ y → wx ≠ wy)
    ∧ (∀ x wx, (x, some wx) ∈ ([(vA, some wBX), (vB, some wBY)] : Assignment) →
        wx.length = x.length)
    ∧ (∀ x y wx wy i j, (x, some wx) ∈ ([(vA, some wBX), (vB, some wBY)] : Assignment) →
        (y, some wy) ∈ ([(vA, some wBX), (vB, some wBY)] : Assignment) →
        y ∈ neighbors pAB x → pAB.overlaps x y = some (i, j) →
        charAt wx i = charAt wy j) :=
  C4_solution_valid pAB dGood [] 10 [(vA, some wBX), (vB, some wBY)] (Or.inl (by decide))

/-- Claim C5: arc-consistency soundness.  For a puzzle whose overlap
relation is symmetric with swapped indices (spec section 3), if `ac3`
seeded with all neighbor arcs succeeds, then for every ordered neighbor
pair with a recorded overlap, every word remaining in the first domain has
a supporting word in the second domain at the overlap indices. -/
theorem C5_ac3_soundness (p : Puzzle) (fuel : Nat) (d d' : Domains)
    (hs : OverlapSym p)
    (hac : ac3 p fuel (get_arcs p) d = some (d', true)) :
    ∀ x ∈ p.vars, ∀ y ∈ neighbors p x, ∀ i j, p.overlaps x y = some (i, j) →
      ∀ vx ∈ domGet d' x, ∃ vy ∈ domGet d' y, charAt vx i = charAt vy j := by
  have hinv := ac3_invariant p hs fuel (get_arcs p) d d'
    (fun e he => by obtain ⟨x, y⟩ := e; exact (mem_get_arcs p x y).mp he)
    (fun x hx y hy => Or.inl ((mem_get_arcs p x y).mpr ⟨hx, hy⟩))
    hac
  intro x hx y hy i j hov vx hvx
  exact hinv x hx y hy i j hov vx hvx

theorem C5_witness :
    ∃ vy ∈ domGet [(vA, [wBX]), (vB, [wBY])] vB, charAt wBX 0 = charAt vy 0 :=
  C5_ac3_soundness pAB 10 dC1 [(vA, [wBX]), (vB, [wBY])]
    (by unfold OverlapSym; decide) (by decide)
    vA (by decide) vB (by decide) 0 0 (by decide) wBX (by decide)

/-- Claim C6 (counterexample): `order_domain_values` does not sort by the
count of neighbor-domain entries NOT equal to the candidate; it sorts by
`len(domain) - len([val for val in domain if val != value])`, the count of
entries EQUAL to the candidate, which orders these two candidates in the
opposite way. -/
theorem C6_counterexample :
    order_domain_values pAB dC6 [] vA = [wBX, wAX]
    ∧ orderDomainValuesSpec pAB dC6 [] vA = [wAX, wBX]
    ∧ order_domain_values pAB dC6 [] vA ≠ orderDomainValuesSpec pAB dC6 [] vA := by
  decide

/-- Claim C6 (amended): `order_domain_values` returns exactly the words of
the variable's domain (a permutation), sorted ascending (stably) by the
score that sums, over the neighbors of the variable that are not keys of
the assignment, the count of that neighbor's domain entries EQUAL to the
candidate value. -/
theorem C6_order_values (p : Puzzle) (d : Domains) (a : Assignment) (var : Variable) :
    List.Perm (order_domain_values p d a var) (domGet d var)
    ∧ (order_domain_values p d a var).Pairwise
        (fun u v => count_conflicts p d a var u ≤ count_conflicts p d a var v)
    ∧ ∀ value, count_conflicts p d a var value =
        (((neighbors p var).filter (fun n => !(keyMem a n))).map
          (fun n => ((domGet d n).filter (fun w => decide (w = value))).length)).sum :=
  ⟨sortByKey_perm _ _, sortByKey_pairwise _ _, count_conflicts_eq p d a var⟩

/-- Claim C7: `select_unassigned_variable`, when some variable is
unassigned (not a key of the assignment), returns an unassigned variable of
minimal current domain size, and among those one of maximal degree, where
the degree of a variable is the number of OTHER variables whose domain
shares at least one word with its domain. -/
theorem C7_select_mrv (d : Domains) (a : Assignment)
    (h : unassignedList d a ≠ []) :
    ∃ v, select_unassigned_variable d a = some v
      ∧ v ∈ unassignedList d a
      ∧ (∀ w ∈ unassignedList d a, (domGet d v).length ≤ (domGet d w).length)
      ∧ (∀ w ∈ unassignedList d a, (domGet d w).length = (domGet d v).length →
          degree d w ≤ degree d v) := by
  obtain ⟨v, hv⟩ := (select_some_iff d a).mpr h
  refine ⟨v, hv, select_mem_unassigned d a v hv, ?_, ?_⟩
  · intro w hw
    rcases select_min_key d a v hv w hw with h1 | h1
    · exact le_of_lt h1
    · exact le_of_eq h1.1
  · intro w hw heq
    rcases select_min_key d a v hv w hw with h1 | h1
    · exfalso
      simp only [svkey] at h1
      omega
    · have h2 := h1.2
      simp only [svkey] at h2
      omega

theorem C7_witness :
    ∃ v, select_unassigned_variable dC1 [] = some v
      ∧ v ∈ unassignedList dC1 []
      ∧ (∀ w ∈ unassignedList dC1 [], (domGet dC1 v).length ≤ (domGet dC1 w).length)
      ∧ (∀ w ∈ unassignedList dC1 [], (domGet dC1 w).length = (domGet dC1 v).length →
          degree dC1 w ≤ degree dC1 v) :=
  C7_select_mrv dC1 [] (by decide)

/-- Claim C8: domain monotonicity.  `revise` only ever removes words from
the revised variable's domain, leaves every other domain untouched, is a
no-op returning `False` when the pair has no recorded overlap, and any
`ac3` run (any arc list) only shrinks domains. -/
theorem C8_domain_monotonicity (p : Puzzle) (d d' : Domains) (x y v : Variable)
    (arcs : List (Variable × Variable)) (fuel : Nat) (b : Bool) :
    (domGet (revise p d x y).1 v ⊆ domGet d v)
    ∧ (v ≠ x → domGet (revise p d x y).1 v = domGet d v)
    ∧ (p.overlaps x y = none → revise p d x y = (d, false))
    ∧ (ac3 p fuel arcs d = some (d', b) → domGet d' v ⊆ domGet d v) :=
  ⟨revise_subset p d x y v,
   fun hv => revise_frame p d x y v hv,
   fun h => revise_none p d x y h,
   fun h => ac3_subset p fuel arcs d d' b h v⟩

theorem C8_witness :
    (domGet (revise pAB dC1 vA vB).1 vA ⊆ domGet dC1 vA)
    ∧ domGet (revise pAB dC1 vA vB).1 vB = domGet dC1 vB
    ∧ revise pABC dC1 vA vB = (dC1, false)
    ∧ domGet [(vA, [wBX]), (vB, [wBY])] vA ⊆ domGet dC1 vA :=
  ⟨(C8_domain_monotonicity pAB dC1 [(vA, [wBX]), (vB, [wBY])] vA vB vA
      (get_arcs pAB) 10 true).1,
   (C8_domain_monotonicity pAB dC1 [(vA, [wBX]), (vB, [wBY])] vA vB vB
      (get_arcs pAB) 10 true).2.1 (by decide),
   (C8_domain_monotonicity pABC dC1 [(vA, [wBX]), (vB, [wBY])] vA vB vA
      (get_arcs pABC) 10 true).2.2.1 (by decide),
   (C8_domain_monotonicity pAB dC1 [(vA, [wBX]), (vB, [wBY])] vA vB vA
      (get_arcs pAB) 10 true).2.2.2 (by decide)⟩

/-- Claim C9: node consistency removes exactly the words whose length
differs from the variable's length; it raises the error naming an offending
variable exactly when some variable's pruned word list is empty (and the
named variable is such a variable); and `solve` surfaces that error as the
malformed-input outcome rather than as the no-solution value. -/
theorem C9_node_consistency (p : Puzzle) (words : List Word) (d d' : Domains)
    (fuel : Nat) (v : Variable) :
    (enforce_node_consistency d = .ok d' →
      d' = d.map (fun e => (e.1, e.2.filter (fun w => decide (w.length = e.1.length)))))
    ∧ (enforce_node_consistency d = .error v →
        ∃ ws, (v, ws) ∈ d ∧ ws.filter (fun w => decide (w.length = v.length)) = [])
    ∧ ((∃ u, enforce_node_consistency d = .error u) ↔
        ∃ e ∈ d, e.2.filter (fun w => decide (w.length = e.1.length)) = [])
    ∧ (enforce_node_consistency (initDomains p words) = .error v →
        solve p words fuel = .error (.malformed v)) :=
  ⟨enforce_ok_eq d d', enforce_error_mem d v, enforce_error_exists_iff d,
   solve_malformed p words fuel v⟩

theorem C9_witness :
    (∃ ws, (vD4, ws) ∈ initDomains pC9 [wAX]
      ∧ ws.filter (fun w => decide (w.length = vD4.length)) = [])
    ∧ solve pC9 [wAX] 10 = .error (.malformed vD4)
    ∧ ([(vA, [wAX]), (vB3, [wCZZ])] : Domains) = (initDomains pC3 [wAX, wCZZ]).map
        (fun e => (e.1, e.2.filter (fun w => decide (w.length = e.1.length)))) :=
  ⟨(C9_node_consistency pC9 [wAX] (initDomains pC9 [wAX])
      (initDomains pC9 [wAX]) 10 vD4).2.1 (by decide),
   (C9_node_consistency pC9 [wAX] (initDomains pC9 [wAX])
      (initDomains pC9 [wAX]) 10 vD4).2.2.2 (by decide),
   (C9_node_consistency pC3 [wAX, wCZZ] (initDomains pC3 [wAX, wCZZ])
      [(vA, [wAX]), (vB3, [wCZZ])] 10 vD4).1 (by decide)⟩

/-- Claim C10 (implicit behavior): `backtrack` is not atomic on failure.
When the search at an incomplete assignment selects `var`, tries at least
one candidate, and returns the failure value, the final state of the
threaded assignment maps `var` to the `None` marker (the key is not
removed); such a variable is excluded from the unassigned set computed by
`select_unassigned_variable` while `assignment_complete` still counts it as
unassigned.  Concretely, on `pAB` with store `dC10`, `backtrack` from the
empty dict fails leaving both variables as `None` keys, the caller's dict
is not restored to its pre-call state, and no variable remains selectable. -/
theorem C10_nonatomic_failure (p : Puzzle) (d : Domains) (fuel : Nat)
    (a aF : Assignment) (var : Variable)
    (hcomp : assignment_complete p a = false)
    (hsel : select_unassigned_variable d a = some var)
    (hws : order_domain_values p d a var ≠ [])
    (hb : backtrack p d (fuel + 1) a = .ok (aF, false)) :
    lookupA aF var = some none
    ∧ var ∉ unassignedList d aF
    ∧ (var ∈ p.vars → assignment_complete p aF = false)
    ∧ backtrack pAB dC10 10 [] = .ok ([(vA, none), (vB, none)], false)
    ∧ ([(vA, none), (vB, none)] : Assignment) ≠ []
    ∧ select_unassigned_variable dC10 [(vA, none), (vB, none)] = none
    ∧ assignment_complete pAB [(vA, none), (vB, none)] = false := by
  have h1 := backtrack_fail_leaves_none p d fuel a aF var hcomp hsel hws hb
  obtain ⟨h2, h3⟩ := none_key_excluded p d aF var h1
  exact ⟨h1, h2, h3, by decide, by decide, by decide, by decide⟩

theorem C10_witness :
    lookupA [(vA, none), (vB, none)] vA = some none
    ∧ vA ∉ unassignedList dC10 [(vA, none), (vB, none)]
    ∧ (vA ∈ pAB.vars → assignment_complete pAB [(vA, none), (vB, none)] = false)
    ∧ backtrack pAB dC10 10 [] = .ok ([(vA, none), (vB, none)], false)
    ∧ ([(vA, none), (vB, none)] : Assignment) ≠ []
    ∧ select_unassigned_variable dC10 [(vA, none), (vB, none)] = none
    ∧ assignment_complete pAB [(vA, none), (vB, none)] = false :=
  C10_nonatomic_failure pAB dC10 9 [] [(vA, none), (vB, none)] vA (by decide) (by decide)
    (by decide) (by decide)

theorem C6_witness :
    List.Perm (order_domain_values pAB dC6 [] vA) (domGet dC6 vA)
    ∧ (order_domain_values pAB dC6 [] vA).Pairwise
        (fun u v => count_conflicts pAB dC6 [] vA u ≤ count_conflicts pAB dC6 [] vA v)
    ∧ ∀ value, count_conflicts pAB dC6 [] vA value =
        (((neighbors pAB vA).filter (fun n => !(keyMem [] n))).map
          (fun n => ((domGet dC6 n).filter (fun w => decide (w = value))).length)).sum :=
  C6_order_values pAB dC6 [] vA
